import Mathlib

/-!
# Verification of `mongoose-cursor-paginate`

A shallow embedding of `src/index.js` (the `paginate` function) together with
models of its external collaborators, and proofs about the claims of the
specification.

Conventions of the embedding:

* A Mongo document ("record") is an association list `List (String × V)` over an
  abstract, linearly ordered value type `V` (field values are orderable BSON
  values: numbers, dates, object ids).  `objectPath.get` on the flat field
  names used by the library is association-list lookup.
* Cursor tokens are values of an abstract type `T`.  The cursor codec
  (`utils/bsonUrlEncoding.js`, not part of `src/`) is modelled from the spec as
  a pair of functions `encode : CursorVal V → T` / `decode : T → Option (CursorVal V)`;
  `decode t = none` models the `InvalidCursor` failure.
* The module-level configuration (`config.js`, not part of `src/`) is modelled
  from the spec as an explicit record of `DEFAULT_LIMIT` / `MAX_LIMIT`.
* JavaScript truthiness: a decoded cursor is an array (always truthy) or an
  `_id` value (an ObjectId, truthy), so presence of a cursor is `Option.isSome`;
  `params.sortAscending` may be any value, modelled as `Option Bool` whose
  truthiness is `= some true` (an absent key is `undefined`, which is falsy).
* The record store collaborator receives the built query as a `StoreQuery`
  value and answers with a list of records; `paginate` is parameterised by that
  function.  A concrete model of the store (`mongoStore`) evaluates the filter,
  sorts, limits and projects, as described in §6 of the spec.
-/

namespace MCP

/-- A Mongo record: an association list from field names to values. -/
abbrev Record (V : Type) := List (String × V)

/-- Association-list lookup (`record[field]`, `objectPath.get(record, field)`). -/
def lookupField {V : Type} (r : Record V) (k : String) : Option V :=
  match r with
  | [] => none
  | (k', v) :: rest => if k' = k then some v else lookupField rest k

/-- `objectPath.get` with the `undefined`-free default used when a field is
known to be present (the query projection always includes `_id` and the
paginated field). -/
def getD {V : Type} [Inhabited V] (r : Record V) (k : String) : V :=
  (lookupField r k).getD default

/-- `_.omit(record, keys)`: drop the listed field names from a record. -/
def omitKeys {V : Type} (r : Record V) (ks : List String) : Record V :=
  r.filter (fun kv => decide (kv.1 ∉ ks))

/-- Projection specs (`params.fields`): an association list from field names to
the numeric include/exclude markers used by Mongo (insertion order preserved,
like a JS object). -/
abbrev Fields := List (String × Int)

/-- `obj[k] = v` on a JS object: overwrite in place if the key exists,
otherwise append (JS objects preserve insertion order). -/
def setKey (fs : Fields) (k : String) (v : Int) : Fields :=
  match fs with
  | [] => [(k, v)]
  | (k', v') :: rest => if k' = k then (k, v) :: rest else (k', v') :: setKey rest k v

/-- Lookup in a projection spec. -/
def getKey (fs : Fields) (k : String) : Option Int :=
  match fs with
  | [] => none
  | (k', v') :: rest => if k' = k then some v' else getKey rest k

/-- JS truthiness of `fields[k]`: present and nonzero. -/
def truthyEntry (fs : Fields) (k : String) : Bool :=
  match getKey fs k with
  | none => false
  | some v => decide (v ≠ 0)

/-- JS truthiness of `params.sortAscending` (an absent key is `undefined`,
which is falsy, as is `false`). -/
def truthyB : Option Bool → Bool
  | some true => true
  | _ => false

/-- A decoded cursor value: a single orderable value (used when
`paginatedField` is `_id`) or a `[paginatedFieldValue, idValue]` pair (used
otherwise).  Mirrors lines 162–177 of `src/index.js`. -/
inductive CursorVal (V : Type) where
  | single (v : V)
  | pair (fieldValue idValue : V)
  deriving DecidableEq, Repr

/-- `cursor[0]` in JS: the first element when the decoded value is an array,
`undefined` (here `none`) otherwise. -/
def CursorVal.idx0 {V : Type} : CursorVal V → Option V
  | .single _ => none
  | .pair a _ => some a

/-- `cursor[1]` in JS. -/
def CursorVal.idx1 {V : Type} : CursorVal V → Option V
  | .single _ => none
  | .pair _ b => some b

/-- A cursor value has the shape the query builder expects for the current
paginated-field mode: a pair when a secondary `_id` sort is active, a single
value otherwise.  Tokens produced by `encode` always satisfy this. -/
def shapeOk {V : Type} (secondary : Bool) : CursorVal V → Prop
  | .single _ => secondary = false
  | .pair _ _ => secondary = true

/-- Modelled from the spec: the cursor codec (`utils/bsonUrlEncoding.js` is not
under `src/`).  `encode` produces an opaque token, `decode` recovers the value
or fails (`none` models the `InvalidCursor` failure on malformed tokens). -/
structure Codec (T V : Type) where
  encode : CursorVal V → T
  decode : T → Option (CursorVal V)

/-- Modelled from the spec: the module configuration (`config.js` is not under
`src/`), providing `DEFAULT_LIMIT` and `MAX_LIMIT`. -/
structure Config where
  DEFAULT_LIMIT : Int
  MAX_LIMIT : Int

/-- The comparison operator of the range filter: `$gt` or `$lt`. -/
inductive RangeOp where
  | gt
  | lt
  deriving DecidableEq, Repr

/-- The range filter pushed onto the query (lines 77–123 of `src/index.js`).

* `simple f op c` is `{f: {op: c}}` — the decoded cursor value is used as is.
* `compound f op a b` is
  `{$or: [{f: {op: a}}, {f: {$eq: a}, _id: {op: b}}]}` where `a`/`b` are
  `cursor[0]`/`cursor[1]` (possibly `undefined`, hence `Option V`). -/
inductive RangeFilter (V : Type) where
  | simple (field : String) (op : RangeOp) (value : CursorVal V)
  | compound (field : String) (op : RangeOp) (fieldValue idValue : Option V)
  deriving DecidableEq, Repr

/-- Build the range filter from a decoded cursor, following the
`shouldSecondarySortOnId` branch structure of lines 77–123. -/
def mkRangeFilter {V : Type} (secondary : Bool) (field : String) (op : RangeOp)
    (c : CursorVal V) : RangeFilter V :=
  if secondary then .compound field op c.idx0 c.idx1
  else .simple field op c

/-- The query handed to the store collaborator (line 139–141):
`find({$and: [query, range?]}, projection).sort(sortSpec).limit(n)`.
`filter.1` is the caller's predicate (`none` when the caller passed no query,
i.e. the defaulted `{}` match-all), `filter.2` the optional range filter. -/
structure StoreQuery (Q V : Type) where
  filterBase : Option Q
  filterRange : Option (RangeFilter V)
  projection : Option Fields
  sortSpec : List (String × Int)
  limitN : Int
  deriving DecidableEq, Repr

/-- The caller-supplied parameter object of `paginate`. -/
structure Params (Q V T : Type) where
  query : Option Q := none
  limit : Option Int := none
  fields : Option Fields := none
  paginatedField : Option String := none
  next : Option T := none
  previous : Option T := none
  sortAscending : Option Bool := none

/-- The page returned by `paginate`. -/
structure PageResult (T V : Type) where
  results : List (Record V)
  previous : Option T
  hasPrevious : Bool
  next : Option T
  hasNext : Bool
  deriving DecidableEq, Repr

/-- The only failure raised by the core itself (decode failures); store
failures would propagate through the collaborator and are outside the model. -/
inductive PaginateError where
  | invalidCursor
  deriving DecidableEq, Repr

/-- Lines 33–42: default `limit` to `DEFAULT_LIMIT`, then clamp below by `1`,
then above by `MAX_LIMIT`. -/
def clampLimit (cfg : Config) (l : Option Int) : Int :=
  let l0 := l.getD cfg.DEFAULT_LIMIT
  let l1 := if l0 < 1 then 1 else l0
  if l1 > cfg.MAX_LIMIT then cfg.MAX_LIMIT else l1

/-- Line 36: `paginatedField` defaults to `'_id'`. -/
def effPaginatedField {Q V T : Type} (p : Params Q V T) : String :=
  p.paginatedField.getD "_id"

/-- Line 47: a secondary `_id` sort is used exactly when the paginated field is
not `_id`. -/
def shouldSecondarySortOnId {Q V T : Type} (p : Params Q V T) : Bool :=
  decide (effPaginatedField p ≠ "_id")

/-- Lines 56–72, the projection actually sent to the store when the caller
supplied one: `_.extend(params.fields, {_id: 1})`, then `fields[pf] = 1` when
`fields[pf]` is falsy. -/
def extendFields (pf : String) (fs : Fields) : Fields :=
  if truthyEntry (setKey fs "_id" 1) pf then setKey fs "_id" 1
  else setKey (setKey fs "_id" 1) pf 1

/-- Lines 56–72, the `fieldsToBeRemoveInResponse` list: `'_id'` is recorded
exactly when the caller explicitly excluded it (`fields._id === 0`), and the
paginated field is recorded when it was falsy in the projection after the
`_id` extension. -/
def toRemoveList (pf : String) (fs : Fields) : List String :=
  (if getKey fs "_id" = some 0 then ["_id"] else []) ++
    (if truthyEntry (setKey fs "_id" 1) pf then [] else [pf])

/-- Line 74: the effective scan direction, from the truthiness of
`params.sortAscending` and of the (decoded) `params.previous`. -/
def sortAscOf (sortAscending : Option Bool) (prevSupplied : Bool) : Bool :=
  (!truthyB sortAscending && prevSupplied) || (truthyB sortAscending && !prevSupplied)

/-- Line 75: the comparison operator, `$gt` when the effective direction is
ascending, `$lt` otherwise. -/
def rangeOpOf {Q V T : Type} (p : Params Q V T) (prevSupplied : Bool) : RangeOp :=
  if sortAscOf p.sortAscending prevSupplied then RangeOp.gt else RangeOp.lt

/-- Line 125: the numeric sort direction. -/
def sortDirOf {Q V T : Type} (p : Params Q V T) (prevSupplied : Bool) : Int :=
  if sortAscOf p.sortAscending prevSupplied then 1 else -1

/-- Lines 125–136: the sort specification — the paginated field, and `_id`
with the same direction when the secondary sort is active. -/
def sortSpecOf {Q V T : Type} (p : Params Q V T) (prevSupplied : Bool) :
    List (String × Int) :=
  if shouldSecondarySortOnId p then
    [(effPaginatedField p, sortDirOf p prevSupplied), ("_id", sortDirOf p prevSupplied)]
  else [(effPaginatedField p, sortDirOf p prevSupplied)]

/-- Lines 29–141: everything `paginate` computes before the store round trip,
as a declarative query description.  `next?`/`prev?` are the already-decoded
cursors (lines 30–31). -/
def buildStoreQuery {Q V T : Type} (cfg : Config) (p : Params Q V T)
    (next? prev? : Option (CursorVal V)) : StoreQuery Q V :=
  let pf := effPaginatedField p
  let secondary := shouldSecondarySortOnId p
  let op := rangeOpOf p prev?.isSome
  let range : Option (RangeFilter V) :=
    match next? with
    | some c => some (mkRangeFilter secondary pf op c)
    | none =>
      match prev? with
      | some c => some (mkRangeFilter secondary pf op c)
      | none => none
  { filterBase := p.query
    filterRange := range
    projection := p.fields.map (extendFields pf)
    sortSpec := sortSpecOf p prev?.isSome
    limitN := clampLimit cfg p.limit + 1 }

/-- Line 144: `hasMore = results.length > params.limit` (clamped limit). -/
def hasMoreOf {Q V T : Type} (cfg : Config) (p : Params Q V T)
    (resp : List (Record V)) : Bool :=
  decide ((resp.length : Int) > clampLimit cfg p.limit)

/-- Line 146: drop the extra over-fetched record when `hasMore`. -/
def keptResults {Q V T : Type} (cfg : Config) (p : Params Q V T)
    (resp : List (Record V)) : List (Record V) :=
  if hasMoreOf cfg p resp then resp.dropLast else resp

/-- Lines 162–177: the cursor value encoded for a boundary record — a
`[paginatedFieldValue, _id]` pair when the secondary sort is active, the bare
paginated-field value otherwise. -/
def cursorOf {V : Type} [Inhabited V] (secondary : Bool) (pf : String)
    (r : Record V) : CursorVal V :=
  if secondary then .pair (getD r pf) (getD r "_id") else .single (getD r pf)

/-- Lines 143–184: assembling the `PageResult` from the store response. -/
def assemblePage {Q V T : Type} [Inhabited V] (cfg : Config) (codec : Codec T V)
    (p : Params Q V T) (next? prev? : Option (CursorVal V))
    (resp : List (Record V)) : PageResult T V :=
  let pf := effPaginatedField p
  let secondary := shouldSecondarySortOnId p
  let hasMore := hasMoreOf cfg p resp
  let results1 := keptResults cfg p resp
  let hasPrevious := next?.isSome || (prev?.isSome && hasMore)
  let hasNext := prev?.isSome || hasMore
  -- Line 152: if we sorted in reverse to get the previous page, restore order.
  let results2 := if prev?.isSome then results1.reverse else results1
  -- Lines 154–177: output cursors are computed from the records before any
  -- synthetic fields are stripped.
  let prevTok := results2.head?.map (fun r => codec.encode (cursorOf secondary pf r))
  let nextTok := results2.getLast?.map (fun r => codec.encode (cursorOf secondary pf r))
  -- Lines 179–182: strip the fields added only for cursor construction.
  let toRemove := match p.fields with
    | none => []
    | some fs => toRemoveList pf fs
  let resultsF := if toRemove.isEmpty then results2
    else results2.map (fun r => omitKeys r toRemove)
  { results := resultsF
    previous := prevTok
    hasPrevious := hasPrevious
    next := nextTok
    hasNext := hasNext }

/-- Lines 30–31: decode a cursor token if supplied; a decode failure raises
`InvalidCursor` before anything else happens. -/
def decodeIf {T V : Type} (codec : Codec T V) :
    Option T → Except PaginateError (Option (CursorVal V))
  | none => .ok none
  | some t =>
    match codec.decode t with
    | none => .error .invalidCursor
    | some c => .ok (some c)

/-- The `paginate` entry point of `src/index.js`, parameterised by the store
collaborator (`this.find(...).sort(...).limit(...)`, modelled as a function
from the built query to the record list it answers with). -/
def paginate {Q V T : Type} [Inhabited V] (cfg : Config) (codec : Codec T V)
    (p : Params Q V T) (store : StoreQuery Q V → List (Record V)) :
    Except PaginateError (PageResult T V) :=
  match decodeIf codec p.previous with
  | .error e => .error e
  | .ok prev? =>
    match decodeIf codec p.next with
    | .error e => .error e
    | .ok next? =>
      .ok (assemblePage cfg codec p next? prev?
        (store (buildStoreQuery cfg p next? prev?)))

/-! ## Model of the record store collaborator

Modelled from the spec (§6): the store supports `find(filter, projection)`
with `.sort(spec)` and `.limit(n)`, returning the matching records with
consistently orderable field values.  It is not part of this repository. -/

/-- The `$gt`/`$lt` comparison of a record's field value against a cursor
component. -/
def cmpOp {V : Type} [LinearOrder V] (op : RangeOp) (recordValue cursorValue : V) : Bool :=
  match op with
  | .gt => decide (cursorValue < recordValue)
  | .lt => decide (recordValue < cursorValue)

/-- Evaluation of the range filter on a record.  The `simple` filter compares
the paginated field against a single decoded value; a `simple` filter holding
an array, or a `compound` filter with missing (`undefined`) components, arises
only from tokens that were not produced by `encode` for the current mode and
matches nothing in this model. -/
def evalRangeFilter {V : Type} [Inhabited V] [LinearOrder V]
    (rf : RangeFilter V) (r : Record V) : Bool :=
  match rf with
  | .simple f op c =>
    match c with
    | .single v => cmpOp op (getD r f) v
    | .pair _ _ => false
  | .compound f op fv iv =>
    match fv, iv with
    | some a, some b =>
      cmpOp op (getD r f) a || (decide (getD r f = a) && cmpOp op (getD r "_id") b)
    | _, _ => false

/-- Evaluation of the full `{$and: [query, range?]}` filter, given an
evaluator for the caller's opaque predicate. -/
def evalFilter {Q V : Type} [Inhabited V] [LinearOrder V]
    (evalQ : Q → Record V → Bool) (sq : StoreQuery Q V) (r : Record V) : Bool :=
  (match sq.filterBase with
    | none => true
    | some q => evalQ q r) &&
  (match sq.filterRange with
    | none => true
    | some rf => evalRangeFilter rf r)

/-- The lexicographic "is before" test induced by a Mongo sort specification
such as `{date: 1, _id: 1}` or `{_id: -1}`. -/
def fieldLE {V : Type} [Inhabited V] [LinearOrder V] :
    List (String × Int) → Record V → Record V → Bool
  | [], _, _ => true
  | (f, dir) :: rest, r, s =>
    if getD r f = getD s f then fieldLE rest r s
    else if dir = 1 then decide (getD r f < getD s f)
    else decide (getD s f < getD r f)

/-- Insert into a sorted list (the auxiliary step of insertion sort). -/
def insertSorted {R : Type} (le : R → R → Bool) (x : R) : List R → List R
  | [] => [x]
  | y :: ys => if le x y then x :: y :: ys else y :: insertSorted le x ys

/-- A stable insertion sort by a boolean comparator, modelling the store's
`.sort(spec)`. -/
def sortBy {R : Type} (le : R → R → Bool) : List R → List R
  | [] => []
  | x :: xs => insertSorted le x (sortBy le xs)

/-- Mongo inclusion-mode projection: keep the fields marked truthy, and `_id`
unless it is explicitly excluded with `_id: 0`.  (The library always sends
inclusion-mode projections: it force-sets `_id: 1` and `paginatedField: 1`.) -/
def applyProjection {V : Type} (proj : Option Fields) (r : Record V) : Record V :=
  match proj with
  | none => r
  | some fs =>
    r.filter (fun kv =>
      if kv.1 = "_id" then !(getKey fs "_id" = some 0) else truthyEntry fs kv.1)

/-- Modelled from the spec: the record store collaborator holding `coll`,
executing `find(filter, projection).sort(spec).limit(n)`. -/
def mongoStore {Q V : Type} [Inhabited V] [LinearOrder V]
    (evalQ : Q → Record V → Bool) (coll : List (Record V))
    (sq : StoreQuery Q V) : List (Record V) :=
  (((sortBy (fieldLE sq.sortSpec) (coll.filter (evalFilter evalQ sq))).take
      sq.limitN.toNat).map (applyProjection sq.projection))

/-- The composite sort key of a record: the pair
`(paginatedField value, _id value)` under the lexicographic order.  When the
paginated field is `_id` itself both components coincide. -/
def ckey {V : Type} [Inhabited V] (pf : String) (r : Record V) : Lex (V × V) :=
  toLex (getD r pf, getD r "_id")

/-- The key a decoded cursor denotes: for a pair cursor the pair itself, for a
single-value cursor (the `_id` mode) the diagonal pair. -/
def cursorKey {V : Type} : CursorVal V → Lex (V × V)
  | .single v => toLex (v, v)
  | .pair a b => toLex (a, b)

/-- The `results` of a successful `paginate` call. -/
def pageResults {T V : Type} : Except PaginateError (PageResult T V) → Option (List (Record V))
  | .ok pg => some pg.results
  | .error _ => none

/-- The `next` cursor of a successful `paginate` call. -/
def pageNext {T V : Type} : Except PaginateError (PageResult T V) → Option T
  | .ok pg => pg.next
  | .error _ => none

/-- The `previous` cursor of a successful `paginate` call. -/
def pagePrevious {T V : Type} : Except PaginateError (PageResult T V) → Option T
  | .ok pg => pg.previous
  | .error _ => none

/-- The comparison operator carried by a range filter. -/
def rangeFilterOp {V : Type} : RangeFilter V → RangeOp
  | .simple _ op _ => op
  | .compound _ op _ _ => op

/-- The spec's direction rule, stated in its own words (§4.2): effective
ascending = `(sortAscending AND previous-not-set) OR (NOT sortAscending AND
previous-is-set)`. -/
def specEffectiveAscending (sortAscending previousSupplied : Bool) : Bool :=
  (sortAscending && !previousSupplied) || (!sortAscending && previousSupplied)

theorem rangeFilterOp_mkRangeFilter {V : Type} (secondary : Bool) (f : String)
    (op : RangeOp) (c : CursorVal V) :
    rangeFilterOp (mkRangeFilter secondary f op c) = op := by
  unfold mkRangeFilter
  split <;> rfl

theorem clampLimit_pos (cfg : Config) (l : Option Int) (hmax : 1 ≤ cfg.MAX_LIMIT) :
    1 ≤ clampLimit cfg l := by
  unfold clampLimit
  dsimp only
  split_ifs <;> omega

/-! ## Claim C2 -/

/-- Claim C2: the effective scan direction is ascending iff
`(sortAscending truthy ∧ previous not supplied) ∨ (sortAscending falsy ∧
previous supplied)`; the range comparison operator is `$gt` exactly when
effective-ascending and `$lt` otherwise; and the sort specification sorts
`paginatedField` with direction `1` when effective-ascending and `-1`
otherwise, adding `_id` with the same direction exactly when `paginatedField`
differs from `'_id'`. -/
theorem claim2_direction_op_sort {Q V T : Type} (cfg : Config) (p : Params Q V T)
    (next? prev? : Option (CursorVal V)) :
    sortAscOf p.sortAscending prev?.isSome
        = specEffectiveAscending (truthyB p.sortAscending) prev?.isSome
    ∧ (∀ rf, (buildStoreQuery cfg p next? prev?).filterRange = some rf →
        rangeFilterOp rf
          = (if specEffectiveAscending (truthyB p.sortAscending) prev?.isSome
              then RangeOp.gt else RangeOp.lt))
    ∧ (buildStoreQuery cfg p next? prev?).sortSpec
        = (let dir : Int :=
            if specEffectiveAscending (truthyB p.sortAscending) prev?.isSome then 1 else -1;
          if effPaginatedField p = "_id" then [(effPaginatedField p, dir)]
          else [(effPaginatedField p, dir), ("_id", dir)]) := by
  have hasc : sortAscOf p.sortAscending prev?.isSome
      = specEffectiveAscending (truthyB p.sortAscending) prev?.isSome := by
    unfold sortAscOf specEffectiveAscending
    cases truthyB p.sortAscending <;> cases prev?.isSome <;> rfl
  refine ⟨hasc, ?_, ?_⟩
  · intro rf hrf
    unfold buildStoreQuery at hrf
    dsimp only at hrf
    unfold rangeOpOf at hrf
    rw [hasc] at hrf
    cases hn : next? with
    | some c =>
      rw [hn] at hrf
      dsimp only at hrf
      cases hrf
      exact rangeFilterOp_mkRangeFilter ..
    | none =>
      rw [hn] at hrf
      cases hp : prev? with
      | some c =>
        rw [hp] at hrf
        dsimp only at hrf
        cases hrf
        exact rangeFilterOp_mkRangeFilter ..
      | none =>
        rw [hp] at hrf
        cases hrf
  · unfold buildStoreQuery sortSpecOf sortDirOf shouldSecondarySortOnId
    dsimp only
    rw [hasc]
    by_cases hpf : effPaginatedField p = "_id" <;> simp [hpf]

/-- Witness for C2 at a concrete call: ascending request without a previous
cursor, secondary sort active. -/
theorem claim2_witness :
    rangeFilterOp (RangeFilter.compound "date" RangeOp.gt (some (3 : Int)) (some 7)) = RangeOp.gt
    ∧ (buildStoreQuery ⟨10, 100⟩
        ({ sortAscending := some true, paginatedField := some "date" } : Params Unit Int Unit)
        (some (.pair 3 7)) none).sortSpec = [("date", 1), ("_id", 1)] := by
  have h := claim2_direction_op_sort (Q := Unit) (V := Int) (T := Unit) ⟨10, 100⟩
    { sortAscending := some true, paginatedField := some "date" } (some (.pair 3 7)) none
  refine ⟨?_, ?_⟩
  · have := h.2.1 (RangeFilter.compound "date" RangeOp.gt (some 3) (some 7)) (by decide)
    simpa using this
  · have := h.2.2
    simpa using this

/-! ## Claim C3 -/

/-- Claim C3: for every call and every store response, `hasPrevious` is true
exactly when `next` was supplied, or `previous` was supplied and the overfetch
detected more records (`hasMore`); and `hasNext` is true exactly when
`previous` was supplied or `hasMore` holds. -/
theorem claim3_hasPrevious_hasNext {Q V T : Type} [Inhabited V] (cfg : Config)
    (codec : Codec T V) (p : Params Q V T) (next? prev? : Option (CursorVal V))
    (resp : List (Record V)) :
    ((assemblePage cfg codec p next? prev? resp).hasPrevious = true ↔
      (next?.isSome = true ∨ (prev?.isSome = true ∧ (resp.length : Int) > clampLimit cfg p.limit)))
    ∧ ((assemblePage cfg codec p next? prev? resp).hasNext = true ↔
      (prev?.isSome = true ∨ (resp.length : Int) > clampLimit cfg p.limit)) := by
  unfold assemblePage hasMoreOf
  dsimp only
  constructor
  · simp [Bool.or_eq_true, Bool.and_eq_true]
  · simp [Bool.or_eq_true]

/-! ## Claim C1 -/

/-- Claim C1: with valid parameters (a configuration whose `MAX_LIMIT` is at
least `1`) the query requests `limit + 1` records (limit after clamping);
`hasMore` holds exactly when the store returned more than `limit` records; in
that case exactly the one extra (last) record is dropped before the page is
assembled; and for every store response respecting the requested limit the
returned results array contains at most `limit` records. -/
theorem claim1_overfetch_bound {Q V T : Type} [Inhabited V] (cfg : Config)
    (codec : Codec T V) (p : Params Q V T) (next? prev? : Option (CursorVal V))
    (resp : List (Record V)) (hmax : 1 ≤ cfg.MAX_LIMIT) :
    (buildStoreQuery cfg p next? prev?).limitN = clampLimit cfg p.limit + 1
    ∧ (hasMoreOf cfg p resp = true ↔ (resp.length : Int) > clampLimit cfg p.limit)
    ∧ (hasMoreOf cfg p resp = true →
        keptResults cfg p resp = resp.dropLast
        ∧ resp.length = (keptResults cfg p resp).length + 1)
    ∧ ((resp.length : Int) ≤ clampLimit cfg p.limit + 1 →
        ((assemblePage cfg codec p next? prev? resp).results.length : Int)
          ≤ clampLimit cfg p.limit) := by
  have hpos : 1 ≤ clampLimit cfg p.limit := clampLimit_pos cfg p.limit hmax
  refine ⟨rfl, by simp [hasMoreOf], ?_, ?_⟩
  · intro hm
    have hne : resp ≠ [] := by
      intro h
      rw [h] at hm
      simp [hasMoreOf] at hm
      omega
    refine ⟨by simp [keptResults, hm], ?_⟩
    simp [keptResults, hm, List.length_dropLast]
    have : 0 < resp.length := List.length_pos.mpr hne
    omega
  · intro hle
    have hlen : (assemblePage cfg codec p next? prev? resp).results.length
        = (keptResults cfg p resp).length := by
      unfold assemblePage
      dsimp only
      cases hp : prev?.isSome <;> split <;>
        simp [hp]
    rw [hlen]
    by_cases hm : hasMoreOf cfg p resp = true
    · have hgt : (resp.length : Int) > clampLimit cfg p.limit := by
        simpa [hasMoreOf] using hm
      have hne : resp ≠ [] := by
        intro h
        rw [h] at hgt
        simp at hgt
        omega
      simp [keptResults, hm, List.length_dropLast]
      have : 0 < resp.length := List.length_pos.mpr hne
      omega
    · have hle' : (resp.length : Int) ≤ clampLimit cfg p.limit := by
        simpa [hasMoreOf] using hm
      simp [keptResults, hm]
      exact hle'

/-- Witness for C1: a concrete call with limit 2 and a store response of 3
records. -/
theorem claim1_witness :
    (1 : Int) ≤ (100 : Int)
    ∧ ((([[("_id", (1 : Int))], [("_id", 2)], [("_id", 3)]] : List (Record Int)).length : Int)
        ≤ clampLimit ⟨10, 100⟩ (some 2) + 1)
    ∧ ((assemblePage ⟨10, 100⟩ ⟨fun c => c, fun c => some c⟩
        ({ limit := some 2 } : Params Unit Int (CursorVal Int)) none none
        [[("_id", 1)], [("_id", 2)], [("_id", 3)]]).results.length : Int)
        ≤ clampLimit ⟨10, 100⟩ (some 2) := by
  refine ⟨by decide, by decide, ?_⟩
  exact (claim1_overfetch_bound ⟨10, 100⟩ ⟨fun c => c, fun c => some c⟩
    { limit := some 2 } none none
    [[("_id", 1)], [("_id", 2)], [("_id", 3)]] (by decide)).2.2.2 (by decide)

/-! ## Claim C6 -/

/-- Counterexample to C6 as stated: with `sortAscending` not supplied the sort
direction of the built query is `-1` (descending), whereas with
`sortAscending: true` it is `1` — the behaviour is not identical.
(`params.sortAscending` is not among the `_.defaults` keys of line 33, and an
absent key is falsy at line 74.) -/
theorem claim6_counterexample :
    (buildStoreQuery ⟨10, 100⟩ ({ sortAscending := none } : Params Unit Int Unit)
        none none).sortSpec
      ≠ (buildStoreQuery ⟨10, 100⟩ ({ sortAscending := some true } : Params Unit Int Unit)
        none none).sortSpec := by
  decide

/-- Claim C6 amended: `sortAscending` effectively defaults to `false`, not
`true`: for every params object in which `sortAscending` is not supplied,
`paginate` behaves identically (same built query, same result) to the same
call with `sortAscending` explicitly set to `false`. -/
theorem claim6_default_is_false {Q V T : Type} [Inhabited V] (cfg : Config)
    (codec : Codec T V) (p : Params Q V T)
    (store : StoreQuery Q V → List (Record V)) :
    paginate cfg codec { p with sortAscending := none } store
      = paginate cfg codec { p with sortAscending := some false } store := rfl

/-! ## Claim C4 -/

/-- Claim C4: when a cursor (`next` or `previous`) is supplied and
`paginatedField` differs from `'_id'`, the range filter is the disjunction
`(paginatedField <op> cursor.field) OR (paginatedField == cursor.field AND
_id <op> cursor.id)` for the effective comparison operator; when
`paginatedField` equals `'_id'` it is simply `paginatedField <op> cursor`;
and the full filter is the `$and` of the caller's query with the range filter
(`filterBase` is the caller's predicate, `filterRange` the range clause of the
`$and`). -/
theorem claim4_range_filter_shape {Q V T : Type} (cfg : Config) (p : Params Q V T)
    (prev? : Option (CursorVal V)) (a b : V) (c : CursorVal V) :
    (effPaginatedField p ≠ "_id" →
      (buildStoreQuery cfg p (some (.pair a b)) prev?).filterRange
        = some (.compound (effPaginatedField p)
            (if sortAscOf p.sortAscending prev?.isSome then RangeOp.gt else RangeOp.lt)
            (some a) (some b)))
    ∧ (effPaginatedField p = "_id" →
      (buildStoreQuery cfg p (some c) prev?).filterRange
        = some (.simple "_id"
            (if sortAscOf p.sortAscending prev?.isSome then RangeOp.gt else RangeOp.lt) c))
    ∧ (effPaginatedField p ≠ "_id" →
      (buildStoreQuery cfg p none (some (.pair a b))).filterRange
        = some (.compound (effPaginatedField p)
            (if sortAscOf p.sortAscending true then RangeOp.gt else RangeOp.lt)
            (some a) (some b)))
    ∧ (effPaginatedField p = "_id" →
      (buildStoreQuery cfg p none (some c)).filterRange
        = some (.simple "_id"
            (if sortAscOf p.sortAscending true then RangeOp.gt else RangeOp.lt) c))
    ∧ (buildStoreQuery cfg p (some c) prev?).filterBase = p.query
    ∧ (buildStoreQuery cfg p none none).filterRange = none := by
  refine ⟨fun hpf => ?_, fun hpf => ?_, fun hpf => ?_, fun hpf => ?_, rfl, rfl⟩ <;>
    simp [buildStoreQuery, mkRangeFilter, shouldSecondarySortOnId, rangeOpOf, hpf,
      CursorVal.idx0, CursorVal.idx1]

/-- Witness for C4: concrete compound and simple range filters. -/
theorem claim4_witness :
    (buildStoreQuery ⟨10, 100⟩
        ({ paginatedField := some "date", sortAscending := some true } : Params Unit Int Unit)
        (some (.pair 3 7)) none).filterRange
      = some (.compound "date" RangeOp.gt (some 3) (some 7))
    ∧ (buildStoreQuery ⟨10, 100⟩
        ({ sortAscending := some true } : Params Unit Int Unit)
        none (some (.single 5))).filterRange
      = some (.simple "_id" RangeOp.lt (.single 5)) := by
  constructor
  · exact (claim4_range_filter_shape ⟨10, 100⟩
      ({ paginatedField := some "date", sortAscending := some true } : Params Unit Int Unit)
      none 3 7 (.single 0)).1 (by decide)
  · exact (claim4_range_filter_shape ⟨10, 100⟩
      ({ sortAscending := some true } : Params Unit Int Unit)
      none 0 0 (.single 5)).2.2.2.1 (by decide)

/-! ## Claim C8 -/

/-- Counterexample to C8 as stated: with both `next` and `previous` supplied
the call does not behave as if only `next` had been supplied — `previous`'s
presence flips the scan direction (line 74), reverses the results (line 152)
and forces `hasNext` (line 149), so the same store yields a different page. -/
theorem claim8_counterexample :
    pageResults (paginate ⟨10, 100⟩ ⟨fun c => c, fun c => some c⟩
        ({ sortAscending := some true, next := some (.single 5), previous := some (.single 3) }
          : Params Unit Int (CursorVal Int))
        (fun sq => if sq.sortSpec = [("_id", 1)] then [[("_id", 9)]] else []))
      ≠ pageResults (paginate ⟨10, 100⟩ ⟨fun c => c, fun c => some c⟩
        ({ sortAscending := some true, next := some (.single 5) }
          : Params Unit Int (CursorVal Int))
        (fun sq => if sq.sortSpec = [("_id", 1)] then [[("_id", 9)]] else [])) := by
  decide

/-- Claim C8 amended: when both `next` and `previous` are supplied (and the
`previous` token decodes), only the cursor *values* of `next` reach the range
filter, while `previous` still counts as supplied for the scan direction, the
result reversal and the page booleans: the call behaves exactly as if
`previous` had been supplied with `next`'s token. -/
theorem claim8_next_values_previous_presence {Q V T : Type} [Inhabited V]
    (cfg : Config) (codec : Codec T V) (p : Params Q V T) (tn tp : T)
    (store : StoreQuery Q V → List (Record V))
    (h : (codec.decode tp).isSome = true) :
    paginate cfg codec { p with next := some tn, previous := some tp } store
      = paginate cfg codec { p with next := some tn, previous := some tn } store := by
  obtain ⟨cp, hcp⟩ := Option.isSome_iff_exists.mp h
  unfold paginate decodeIf
  dsimp only
  rw [hcp]
  cases hn : codec.decode tn <;> rfl

/-- Witness for C8's amended theorem at a concrete call (both cursor tokens
supplied, the `previous` value differing from the `next` value). -/
theorem claim8_witness :
    ((⟨fun c => c, fun c => some c⟩ : Codec (CursorVal Int) Int).decode
        (.single 3)).isSome = true
    ∧ paginate ⟨10, 100⟩ ⟨fun c => c, fun c => some c⟩
        ({ sortAscending := some true, next := some (.single 5), previous := some (.single 3) }
          : Params Unit Int (CursorVal Int))
        (fun _ => [[("_id", 1)]])
      = paginate ⟨10, 100⟩ ⟨fun c => c, fun c => some c⟩
        ({ sortAscending := some true, next := some (.single 5), previous := some (.single 5) }
          : Params Unit Int (CursorVal Int))
        (fun _ => [[("_id", 1)]]) := by
  refine ⟨by decide, ?_⟩
  have h := claim8_next_values_previous_presence (Q := Unit) ⟨10, 100⟩
    ⟨fun c => c, fun c => some c⟩
    ({ sortAscending := some true } : Params Unit Int (CursorVal Int))
    (.single 5) (.single 3) (fun _ => [[("_id", 1)]]) (by decide)
  exact h

/-! ## Association-list lemmas -/

theorem getKey_setKey_self (fs : Fields) (k : String) (v : Int) :
    getKey (setKey fs k v) k = some v := by
  induction fs with
  | nil => simp [setKey, getKey]
  | cons kv rest ih =>
    unfold setKey
    by_cases h : kv.1 = k
    · simp [h, getKey]
    · simp only [h, if_false]
      unfold getKey
      simp [h, ih]

theorem getKey_setKey_ne (fs : Fields) (k k' : String) (v : Int) (h : k' ≠ k) :
    getKey (setKey fs k v) k' = getKey fs k' := by
  have hne : ¬k = k' := fun he => h he.symm
  induction fs with
  | nil => simp [setKey, getKey, hne]
  | cons kv rest ih =>
    unfold setKey
    by_cases hk : kv.1 = k
    · rw [if_pos hk]
      unfold getKey
      have hne2 : ¬kv.1 = k' := by rw [hk]; exact hne
      rw [if_neg hne, if_neg hne2]
    · rw [if_neg hk]
      unfold getKey
      by_cases hk' : kv.1 = k' <;> simp [hk', ih]

theorem lookupField_omitKeys {V : Type} (r : Record V) (ks : List String)
    (k : String) (hk : k ∈ ks) : lookupField (omitKeys r ks) k = none := by
  induction r with
  | nil => rfl
  | cons kv rest ih =>
    unfold omitKeys at ih ⊢
    by_cases h : kv.1 ∈ ks
    · simpa [List.filter_cons, h] using ih
    · have hne : kv.1 ≠ k := fun he => h (he ▸ hk)
      simpa [List.filter_cons, h, lookupField, hne] using ih

/-! ## Claim C9 -/

/-- Claim C9: if a supplied `next` or `previous` token fails to decode,
`paginate` fails with `InvalidCursor` immediately; the result is the same for
every store collaborator (the store is never consulted) and no page is
returned. -/
theorem claim9_invalid_cursor {Q V T : Type} [Inhabited V] (cfg : Config)
    (codec : Codec T V) (p : Params Q V T)
    (store : StoreQuery Q V → List (Record V))
    (h : (∃ t, p.previous = some t ∧ codec.decode t = none)
      ∨ (∃ t, p.next = some t ∧ codec.decode t = none)) :
    paginate cfg codec p store = .error .invalidCursor := by
  unfold paginate
  rcases h with ⟨t, ht, hd⟩ | ⟨t, ht, hd⟩
  · rw [ht]
    have hdec : decodeIf codec (some t)
        = (.error .invalidCursor : Except PaginateError (Option (CursorVal V))) := by
      unfold decodeIf
      dsimp only
      rw [hd]
    rw [hdec]
  · rw [ht]
    have hdec : decodeIf codec (some t)
        = (.error .invalidCursor : Except PaginateError (Option (CursorVal V))) := by
      unfold decodeIf
      dsimp only
      rw [hd]
    cases hdp : decodeIf codec p.previous with
    | error e =>
      cases e
      rfl
    | ok prev? => rw [hdec]

/-- Witness for C9: a concrete malformed token makes `paginate` fail before
any store interaction, whatever the store would answer. -/
theorem claim9_witness :
    paginate ⟨10, 100⟩ ⟨fun c => c, fun _ => none⟩
        ({ next := some (.single 4) } : Params Unit Int (CursorVal Int))
        (fun _ => [[("_id", 1)]])
      = .error .invalidCursor := by
  exact claim9_invalid_cursor (Q := Unit) (V := Int) (T := CursorVal Int) ⟨10, 100⟩
    ⟨fun c => c, fun _ => none⟩
    { next := some (.single 4) } (fun _ => [[("_id", 1)]])
    (Or.inr ⟨.single 4, rfl, rfl⟩)

/-! ## Claim C7 -/

/-- Counterexample to C7 as stated: a projection that merely *omits* `_id`
(`fields = {title: 1}`).  `_id` is force-included, but line 58 records it as
synthetic only when it is explicitly `0`, so nothing is stripped and the
returned record still carries `_id` — contradicting "including '_id' when it
is merely omitted from the projection". -/
theorem claim7_counterexample :
    toRemoveList "_id" [("title", 1)] = []
    ∧ (assemblePage ⟨10, 100⟩ ⟨fun c => c, fun c => some c⟩
        ({ fields := some [("title", 1)] } : Params Unit Int (CursorVal Int)) none none
        [[("_id", 7), ("title", 3)]]).results
      = [[("_id", 7), ("title", 3)]] := by
  constructor <;> decide

/-- Claim C7 amended: when the caller supplies a projection, the query
projection force-includes `'_id'` and the paginated field; `'_id'` is recorded
as synthetic (and stripped from every returned record) only when it was
*explicitly excluded* with `_id: 0` — a merely omitted `'_id'` is returned —
while the paginated field is recorded and stripped whenever it is not truthy
after the `_id` extension; and the output cursors are computed from the
records before stripping (they equal those of the same call without a
projection). -/
theorem claim7_projection_synthetic_fields {Q V T : Type} [Inhabited V]
    (cfg : Config) (codec : Codec T V) (p : Params Q V T)
    (next? prev? : Option (CursorVal V)) (resp : List (Record V))
    (fs : Fields) (hfs : p.fields = some fs) :
    (buildStoreQuery cfg p next? prev?).projection
        = some (extendFields (effPaginatedField p) fs)
    ∧ getKey (extendFields (effPaginatedField p) fs) "_id" = some 1
    ∧ truthyEntry (extendFields (effPaginatedField p) fs) (effPaginatedField p) = true
    ∧ (getKey fs "_id" = some 0 → "_id" ∈ toRemoveList (effPaginatedField p) fs)
    ∧ (getKey fs "_id" = none → "_id" ∉ toRemoveList (effPaginatedField p) fs)
    ∧ (truthyEntry (setKey fs "_id" 1) (effPaginatedField p) = false →
        effPaginatedField p ∈ toRemoveList (effPaginatedField p) fs)
    ∧ (∀ r ∈ (assemblePage cfg codec p next? prev? resp).results,
        ∀ k ∈ toRemoveList (effPaginatedField p) fs, lookupField r k = none)
    ∧ (assemblePage cfg codec p next? prev? resp).next
        = (assemblePage cfg codec { p with fields := none } next? prev? resp).next
    ∧ (assemblePage cfg codec p next? prev? resp).previous
        = (assemblePage cfg codec { p with fields := none } next? prev? resp).previous := by
  refine ⟨by simp [buildStoreQuery, hfs], ?_, ?_, ?_, ?_, ?_, ?_, rfl, rfl⟩
  · unfold extendFields
    split
    · exact getKey_setKey_self fs "_id" 1
    · by_cases h : effPaginatedField p = "_id"
      · rw [h]
        exact getKey_setKey_self _ "_id" 1
      · rw [getKey_setKey_ne _ (effPaginatedField p) "_id" 1 (fun he => h he.symm)]
        exact getKey_setKey_self fs "_id" 1
  · unfold extendFields
    split
    · assumption
    · simp [truthyEntry, getKey_setKey_self]
  · intro h0
    simp [toRemoveList, h0]
  · intro h0
    unfold toRemoveList
    rw [h0, if_neg (by simp)]
    simp only [List.nil_append]
    split
    · simp
    · rename_i hfalse
      by_cases h : effPaginatedField p = "_id"
      · exfalso
        rw [h] at hfalse
        simp [truthyEntry, getKey_setKey_self] at hfalse
      · simp only [List.mem_singleton]
        exact fun he => h he.symm
  · intro hft
    simp [toRemoveList, hft]
  · intro r hr k hk
    unfold assemblePage at hr
    dsimp only at hr
    rw [hfs] at hr
    dsimp only at hr
    by_cases he : (toRemoveList (effPaginatedField p) fs).isEmpty = true
    · rw [List.isEmpty_iff] at he
      rw [he] at hk
      exact absurd hk (List.not_mem_nil k)
    · rw [if_neg he] at hr
      obtain ⟨r', _, hr'⟩ := List.mem_map.mp hr
      rw [← hr']
      exact lookupField_omitKeys r' _ k hk

/-- Witness for C7's amended theorem: projection `{date: 1, _id: 0}` with
paginated field `date` — `_id` (explicitly excluded) is stripped from the
returned records. -/
theorem claim7_witness :
    getKey (extendFields "date" [("date", 1), ("_id", 0)]) "_id" = some 1
    ∧ ("_id" ∈ toRemoveList "date" [("date", 1), ("_id", 0)])
    ∧ (∀ r ∈ (assemblePage ⟨10, 100⟩ ⟨fun c => c, fun c => some c⟩
          ({ fields := some [("date", 1), ("_id", 0)], paginatedField := some "date" }
            : Params Unit Int (CursorVal Int)) none none
          [[("_id", 7), ("date", 3)]]).results,
        ∀ k ∈ toRemoveList "date" [("date", 1), ("_id", 0)], lookupField r k = none) := by
  have h := claim7_projection_synthetic_fields (Q := Unit) ⟨10, 100⟩
    ⟨fun c => c, fun c => some c⟩
    ({ fields := some [("date", 1), ("_id", 0)], paginatedField := some "date" }
      : Params Unit Int (CursorVal Int)) none none
    [[("_id", 7), ("date", 3)]] [("date", 1), ("_id", 0)] rfl
  exact ⟨h.2.1, h.2.2.2.1 rfl, h.2.2.2.2.2.2.1⟩

/-! ## Claim C10 -/

/-- The slots of the caller's `params` object that `paginate` mutates in place
(besides the `_.defaults`/clamping of `query`/`limit`/`paginatedField`): the
`fields` object, and the `next`/`previous` slots, which initially hold the
caller's opaque tokens (`Sum.inl`) and after lines 30–31 hold the decoded
cursor values (`Sum.inr`). -/
structure ParamsObserved (T V : Type) where
  fieldsObs : Option Fields
  nextObs : Option (Sum T (CursorVal V))
  previousObs : Option (Sum T (CursorVal V))
  deriving DecidableEq, Repr

/-- The state of those slots as the caller passed them in. -/
def observedBefore {Q V T : Type} (p : Params Q V T) : ParamsObserved T V :=
  { fieldsObs := p.fields
    nextObs := p.next.map Sum.inl
    previousObs := p.previous.map Sum.inl }

/-- The state of those slots after a completed call: lines 30–31 overwrite the
cursor slots with their decoded values, and lines 63–71 extend the caller's
`fields` object in place (`_.extend` and the `fields[paginatedField] = 1`
assignment mutate the object the caller passed).  A decode failure aborts the
call (`.error`). -/
def observedAfter {Q V T : Type} (codec : Codec T V) (p : Params Q V T) :
    Except PaginateError (ParamsObserved T V) :=
  match decodeIf codec p.previous with
  | .error e => .error e
  | .ok prev? =>
    match decodeIf codec p.next with
    | .error e => .error e
    | .ok next? =>
      .ok { fieldsObs := p.fields.map (extendFields (effPaginatedField p))
            nextObs := next?.map Sum.inr
            previousObs := prev?.map Sum.inr }

/-- Claim C10: `paginate` mutates the caller-supplied `params` object: a
supplied `next`/`previous` token is overwritten in place with its decoded
value, a supplied `fields` object is extended in place with `_id: 1`
(overwriting an explicit `_id: 0`) and with `paginatedField: 1` when that
field was not already truthy; and for every completed call with such params
the object observed afterwards differs from the one passed in. -/
theorem claim10_params_mutation {Q V T : Type} (codec : Codec T V)
    (p : Params Q V T) (o : ParamsObserved T V)
    (hok : observedAfter codec p = .ok o)
    (hsuch : p.next.isSome = true ∨ p.previous.isSome = true ∨
      (∃ fs, p.fields = some fs ∧
        (getKey fs "_id" = some 0
          ∨ truthyEntry (setKey fs "_id" 1) (effPaginatedField p) = false))) :
    o ≠ observedBefore p
    ∧ (∀ t, p.next = some t → o.nextObs = (codec.decode t).map Sum.inr)
    ∧ (∀ t, p.previous = some t → o.previousObs = (codec.decode t).map Sum.inr)
    ∧ (∀ fs, p.fields = some fs →
        o.fieldsObs = some (extendFields (effPaginatedField p) fs)) := by
  unfold observedAfter at hok
  cases hdp : decodeIf codec p.previous with
  | error e =>
    rw [hdp] at hok
    exact absurd hok (by simp)
  | ok prev? =>
    rw [hdp] at hok
    dsimp only at hok
    cases hdn : decodeIf codec p.next with
    | error e =>
      rw [hdn] at hok
      exact absurd hok (by simp)
    | ok next? =>
      rw [hdn] at hok
      dsimp only at hok
      have ho : o = { fieldsObs := p.fields.map (extendFields (effPaginatedField p))
                      nextObs := next?.map Sum.inr
                      previousObs := prev?.map Sum.inr } := by
        cases hok
        rfl
      subst ho
      refine ⟨?_, ?_, ?_, ?_⟩
      · rcases hsuch with hn | hp | ⟨fs, hfs, hmut⟩
        · obtain ⟨t, ht⟩ := Option.isSome_iff_exists.mp hn
          rw [ht] at hdn
          unfold decodeIf at hdn
          dsimp only at hdn
          cases hdt : codec.decode t with
          | none =>
            rw [hdt] at hdn
            exact absurd hdn (by simp)
          | some c =>
            rw [hdt] at hdn
            cases hdn
            intro he
            have := congrArg ParamsObserved.nextObs he
            simp [observedBefore, ht] at this
        · obtain ⟨t, ht⟩ := Option.isSome_iff_exists.mp hp
          rw [ht] at hdp
          unfold decodeIf at hdp
          dsimp only at hdp
          cases hdt : codec.decode t with
          | none =>
            rw [hdt] at hdp
            exact absurd hdp (by simp)
          | some c =>
            rw [hdt] at hdp
            cases hdp
            intro he
            have := congrArg ParamsObserved.previousObs he
            simp [observedBefore, ht] at this
        · intro he
          have := congrArg ParamsObserved.fieldsObs he
          simp only [observedBefore, hfs, Option.map_some] at this
          have hext : extendFields (effPaginatedField p) fs = fs :=
            Option.some_injective _ this
          rcases hmut with h0 | hft
          · have h1 : getKey (extendFields (effPaginatedField p) fs) "_id" = some 1 := by
              unfold extendFields
              split
              · exact getKey_setKey_self fs "_id" 1
              · by_cases h : effPaginatedField p = "_id"
                · rw [h]
                  exact getKey_setKey_self _ "_id" 1
                · rw [getKey_setKey_ne _ (effPaginatedField p) "_id" 1 (fun he' => h he'.symm)]
                  exact getKey_setKey_self fs "_id" 1
            rw [hext, h0] at h1
            exact absurd h1 (by simp)
          · have h1 : truthyEntry (extendFields (effPaginatedField p) fs)
                (effPaginatedField p) = true := by
              unfold extendFields
              split
              · assumption
              · simp [truthyEntry, getKey_setKey_self]
            rw [hext] at h1
            by_cases h : effPaginatedField p = "_id"
            · rw [h] at hft
              simp [truthyEntry, getKey_setKey_self] at hft
            · have heq : truthyEntry (setKey fs "_id" 1) (effPaginatedField p)
                  = truthyEntry fs (effPaginatedField p) := by
                unfold truthyEntry
                rw [getKey_setKey_ne fs "_id" (effPaginatedField p) 1 h]
              rw [heq, h1] at hft
              exact absurd hft (by simp)
      · intro t ht
        rw [ht] at hdn
        unfold decodeIf at hdn
        dsimp only at hdn
        cases hdt : codec.decode t with
        | none =>
          rw [hdt] at hdn
          exact absurd hdn (by simp)
        | some c =>
          rw [hdt] at hdn
          cases hdn
          rfl
      · intro t ht
        rw [ht] at hdp
        unfold decodeIf at hdp
        dsimp only at hdp
        cases hdt : codec.decode t with
        | none =>
          rw [hdt] at hdp
          exact absurd hdp (by simp)
        | some c =>
          rw [hdt] at hdp
          cases hdp
          rfl
      · intro fs hfs
        simp [hfs]

/-- Witness for C10: a call with a `next` token and a projection explicitly
excluding `_id` — afterwards the `next` slot holds the decoded value and the
`fields` object has `_id: 1`. -/
theorem claim10_witness :
    observedAfter (⟨fun c => c, fun c => some c⟩ : Codec (CursorVal Int) Int)
        ({ next := some (.single 4), fields := some [("_id", 0)] }
          : Params Unit Int (CursorVal Int))
      = .ok { fieldsObs := some [("_id", 1)]
              nextObs := some (Sum.inr (.single 4))
              previousObs := none }
    ∧ ({ fieldsObs := some [("_id", 1)]
         nextObs := some (Sum.inr (.single 4))
         previousObs := none } : ParamsObserved (CursorVal Int) Int)
      ≠ observedBefore ({ next := some (.single 4), fields := some [("_id", 0)] }
          : Params Unit Int (CursorVal Int)) := by
  refine ⟨rfl, ?_⟩
  exact (claim10_params_mutation (⟨fun c => c, fun c => some c⟩ : Codec (CursorVal Int) Int)
    ({ next := some (.single 4), fields := some [("_id", 0)] } : Params Unit Int (CursorVal Int))
    _ rfl (Or.inl rfl)).1

/-! ## Claim C5: support lemmas

The composite sort key `(paginatedField, _id)` under the lexicographic order
characterizes the built range filters and sort comparators; over a collection
with pairwise distinct keys the store pipeline reduces to `take`/`drop`
arithmetic on the sorted sequence. -/

theorem shapeOk_cursorOf {V : Type} [Inhabited V] (s : Bool) (pf : String)
    (r : Record V) : shapeOk s (cursorOf s pf r) := by
  cases s <;> simp [cursorOf, shapeOk]

theorem cursorKey_cursorOf {V : Type} [Inhabited V] (pf : String) (r : Record V) :
    cursorKey (cursorOf (decide (pf ≠ "_id")) pf r) = ckey pf r := by
  by_cases h : pf = "_id"
  · subst h
    simp [cursorOf, cursorKey, ckey]
  · simp [cursorOf, cursorKey, ckey, h]

theorem evalRange_gt_iff {V : Type} [Inhabited V] [LinearOrder V] (pf : String)
    (c : CursorVal V) (r : Record V) (hc : shapeOk (decide (pf ≠ "_id")) c) :
    (evalRangeFilter (mkRangeFilter (decide (pf ≠ "_id")) pf RangeOp.gt c) r = true)
      ↔ cursorKey c < ckey pf r := by
  cases c with
  | single v =>
    have h : pf = "_id" := by simpa [shapeOk] using hc
    subst h
    simp only [mkRangeFilter, decide_not, decide_True, Bool.not_true, Bool.false_eq_true,
      if_false, evalRangeFilter, cmpOp, cursorKey, ckey, Prod.Lex.lt_iff,
      decide_eq_true_iff]
    constructor
    · exact fun h => Or.inl h
    · rintro (h | ⟨he, h⟩) <;> exact h
  | pair a b =>
    have h : (decide (pf ≠ "_id")) = true := by simpa [shapeOk] using hc
    simp only [mkRangeFilter, h, if_true, evalRangeFilter, CursorVal.idx0, CursorVal.idx1,
      cmpOp, Bool.or_eq_true, Bool.and_eq_true, decide_eq_true_iff, cursorKey, ckey,
      Prod.Lex.lt_iff]
    constructor
    · rintro (hlt | ⟨he, hb⟩)
      · exact Or.inl hlt
      · exact Or.inr ⟨he.symm, hb⟩
    · rintro (hlt | ⟨he, hb⟩)
      · exact Or.inl hlt
      · exact Or.inr ⟨he.symm, hb⟩

theorem evalRange_lt_iff {V : Type} [Inhabited V] [LinearOrder V] (pf : String)
    (c : CursorVal V) (r : Record V) (hc : shapeOk (decide (pf ≠ "_id")) c) :
    (evalRangeFilter (mkRangeFilter (decide (pf ≠ "_id")) pf RangeOp.lt c) r = true)
      ↔ ckey pf r < cursorKey c := by
  cases c with
  | single v =>
    have h : pf = "_id" := by simpa [shapeOk] using hc
    subst h
    simp only [mkRangeFilter, decide_not, decide_True, Bool.not_true, Bool.false_eq_true,
      if_false, evalRangeFilter, cmpOp, cursorKey, ckey, Prod.Lex.lt_iff,
      decide_eq_true_iff]
    constructor
    · exact fun h => Or.inl h
    · rintro (h | ⟨he, h⟩) <;> exact h
  | pair a b =>
    have h : (decide (pf ≠ "_id")) = true := by simpa [shapeOk] using hc
    simp only [mkRangeFilter, h, if_true, evalRangeFilter, CursorVal.idx0, CursorVal.idx1,
      cmpOp, Bool.or_eq_true, Bool.and_eq_true, decide_eq_true_iff, cursorKey, ckey,
      Prod.Lex.lt_iff]

theorem fieldLE_pair_asc_iff {V : Type} [Inhabited V] [LinearOrder V] (pf : String)
    (r s : Record V) :
    (fieldLE [(pf, 1), ("_id", 1)] r s = true) ↔ ckey pf r ≤ ckey pf s := by
  unfold fieldLE
  by_cases h1 : getD r pf = getD s pf
  · rw [if_pos h1]
    by_cases h2 : getD r "_id" = getD s "_id"
    · simp [fieldLE, h2, ckey, Prod.Lex.le_iff, h1]
    · simp only [fieldLE, h2, if_false, if_pos rfl, ckey, Prod.Lex.le_iff,
        decide_eq_true_iff]
      rw [h1]
      simp only [lt_irrefl, false_or, true_and]
      rw [le_iff_lt_or_eq]
      simp [h2]
  · rw [if_neg h1]
    simp only [if_pos rfl, ckey, Prod.Lex.le_iff, decide_eq_true_iff]
    simp [h1]

theorem fieldLE_pair_desc_eq {V : Type} [Inhabited V] [LinearOrder V] (pf : String)
    (r s : Record V) :
    fieldLE [(pf, -1), ("_id", -1)] r s = fieldLE [(pf, 1), ("_id", 1)] s r := by
  simp only [fieldLE]
  by_cases h1 : getD r pf = getD s pf
  · rw [if_pos h1, if_pos h1.symm]
    by_cases h2 : getD r "_id" = getD s "_id"
    · rw [if_pos h2, if_pos h2.symm]
    · rw [if_neg h2, if_neg (show ¬getD s "_id" = getD r "_id" from fun he => h2 he.symm)]
      norm_num
  · rw [if_neg h1, if_neg (show ¬getD s pf = getD r pf from fun he => h1 he.symm)]
    norm_num

theorem fieldLE_pair_desc_iff {V : Type} [Inhabited V] [LinearOrder V] (pf : String)
    (r s : Record V) :
    (fieldLE [(pf, -1), ("_id", -1)] r s = true) ↔ ckey pf s ≤ ckey pf r := by
  rw [fieldLE_pair_desc_eq, fieldLE_pair_asc_iff]

theorem ckey_id_le_iff {V : Type} [Inhabited V] [LinearOrder V] (r s : Record V) :
    ckey "_id" r ≤ ckey "_id" s ↔ getD r "_id" ≤ getD s "_id" := by
  unfold ckey
  rw [Prod.Lex.le_iff]
  constructor
  · rintro (h | ⟨he, h⟩)
    · exact le_of_lt h
    · exact h
  · intro h
    rcases lt_or_eq_of_le h with hlt | he
    · exact Or.inl hlt
    · exact Or.inr ⟨he, h⟩

theorem fieldLE_single_asc_iff {V : Type} [Inhabited V] [LinearOrder V]
    (r s : Record V) :
    (fieldLE [("_id", 1)] r s = true) ↔ ckey "_id" r ≤ ckey "_id" s := by
  rw [ckey_id_le_iff]
  simp only [fieldLE]
  by_cases h1 : getD r "_id" = getD s "_id"
  · simp [h1]
  · rw [if_neg h1]
    simp only [if_true, decide_eq_true_iff]
    constructor
    · exact le_of_lt
    · exact fun h => lt_of_le_of_ne h h1

theorem fieldLE_single_desc_eq {V : Type} [Inhabited V] [LinearOrder V]
    (r s : Record V) :
    fieldLE [("_id", -1)] r s = fieldLE [("_id", 1)] s r := by
  simp only [fieldLE]
  by_cases h1 : getD r "_id" = getD s "_id"
  · rw [if_pos h1, if_pos h1.symm]
  · rw [if_neg h1, if_neg (show ¬getD s "_id" = getD r "_id" from fun he => h1 he.symm)]
    norm_num

theorem fieldLE_single_desc_iff {V : Type} [Inhabited V] [LinearOrder V]
    (r s : Record V) :
    (fieldLE [("_id", -1)] r s = true) ↔ ckey "_id" s ≤ ckey "_id" r := by
  rw [fieldLE_single_desc_eq, fieldLE_single_asc_iff]

theorem insertSorted_all_false {R : Type} (le : R → R → Bool) (x : R) (l : List R)
    (h : ∀ b ∈ l, le x b = false) : insertSorted le x l = l ++ [x] := by
  induction l with
  | nil => rfl
  | cons y ys ih =>
    unfold insertSorted
    rw [h y (List.mem_cons_self y ys)]
    simp only [Bool.false_eq_true, if_false]
    rw [ih (fun b hb => h b (List.mem_cons_of_mem y hb))]
    rfl

theorem sortBy_of_pairwise {R : Type} (le : R → R → Bool) (l : List R)
    (h : l.Pairwise fun a b => le a b = true) : sortBy le l = l := by
  induction l with
  | nil => rfl
  | cons x xs ih =>
    rw [List.pairwise_cons] at h
    unfold sortBy
    rw [ih h.2]
    cases xs with
    | nil => rfl
    | cons y ys =>
      unfold insertSorted
      rw [h.1 y (List.mem_cons_self y ys)]
      rfl

theorem sortBy_eq_reverse_of_pairwise {R : Type} (le : R → R → Bool) (l : List R)
    (h : l.Pairwise fun a b => le a b = false) : sortBy le l = l.reverse := by
  induction l with
  | nil => rfl
  | cons x xs ih =>
    rw [List.pairwise_cons] at h
    unfold sortBy
    rw [ih h.2]
    rw [insertSorted_all_false le x xs.reverse
      (fun b hb => h.1 b (List.mem_reverse.mp hb))]
    simp

theorem filter_suffix_of_upward {R K : Type} [LinearOrder K] (key : R → K)
    (p : R → Bool) (hmono : ∀ a b, key a ≤ key b → p a = true → p b = true)
    (l : List R) (hl : l.Pairwise fun a b => key a < key b) :
    l.filter p <:+ l := by
  induction l with
  | nil => simp
  | cons x xs ih =>
    rw [List.pairwise_cons] at hl
    by_cases hx : p x = true
    · have hall : xs.filter p = xs := List.filter_eq_self.mpr
        (fun b hb => hmono x b (le_of_lt (hl.1 b hb)) hx)
      rw [List.filter_cons_of_pos hx, hall]
    · rw [List.filter_cons_of_neg (by simpa using hx)]
      exact (ih hl.2).trans (List.suffix_cons x xs)

theorem keptResults_take {Q V T : Type} (cfg : Config) (p : Params Q V T)
    (l : List (Record V)) (hL : 1 ≤ clampLimit cfg p.limit) :
    keptResults cfg p (l.take (clampLimit cfg p.limit + 1).toNat)
      = l.take (clampLimit cfg p.limit).toNat := by
  have h1 : (clampLimit cfg p.limit + 1).toNat = (clampLimit cfg p.limit).toNat + 1 := by
    omega
  unfold keptResults hasMoreOf
  rw [h1]
  by_cases hlen : (clampLimit cfg p.limit).toNat + 1 ≤ l.length
  · have hlt : (l.take ((clampLimit cfg p.limit).toNat + 1)).length
        = (clampLimit cfg p.limit).toNat + 1 := List.length_take_of_le hlen
    have hcond : (decide (((l.take ((clampLimit cfg p.limit).toNat + 1)).length : Int)
        > clampLimit cfg p.limit)) = true := by
      rw [hlt]
      simp only [decide_eq_true_iff]
      omega
    rw [hcond, if_pos rfl]
    rw [List.dropLast_eq_take, hlt]
    simp only [Nat.add_sub_cancel, List.take_take]
    rw [Nat.min_eq_left (Nat.le_succ _)]
  · have hle : l.length ≤ (clampLimit cfg p.limit).toNat := by omega
    have htk : l.take ((clampLimit cfg p.limit).toNat + 1) = l :=
      List.take_of_length_le (by omega)
    have hcond : (decide (((l.take ((clampLimit cfg p.limit).toNat + 1)).length : Int)
        > clampLimit cfg p.limit)) = false := by
      rw [htk]
      simp only [decide_eq_false_iff_not, not_lt]
      omega
    rw [hcond]
    simp only [Bool.false_eq_true, if_false]
    rw [htk]
    exact (List.take_of_length_le hle).symm

/-- The list-level heart of the forward/backward symmetry: over a strictly
key-sorted sequence `S`, if a forward page is the first `LN` elements of a
suffix `F` of `S` and the following page (records strictly beyond the last
record `w1` of the page) is nonempty with first record `w2`, then scanning
backwards from `w2` (records strictly before `w2`, taken from the reversed
order and re-reversed) reproduces the page exactly. -/
theorem page_symmetry_core {R K : Type} [LinearOrder K] (key : R → K)
    (S : List R) (hS : S.Pairwise fun a b => key a < key b)
    (LN : ℕ) (F : List R) (hF : F <:+ S)
    (w1 : R) (hw1 : (F.take LN).getLast? = some w1)
    (w2 : R) (hw2 : ((S.filter fun r => decide (key w1 < key r)).take LN).head? = some w2) :
    ((S.filter fun r => decide (key r < key w2)).reverse.take LN).reverse = F.take LN := by
  obtain ⟨u, hu⟩ := hF
  obtain ⟨R1p, hR1p⟩ := List.getLast?_eq_some_iff.mp hw1
  have htakej : F.take ((F.take LN).length) = F.take LN := by
    rw [List.length_take]
    rcases Nat.le_total LN F.length with h | h
    · rw [Nat.min_eq_left h]
    · rw [Nat.min_eq_right h, List.take_length, List.take_of_length_le h]
  have hSdecomp : S = (u ++ F.take LN) ++ F.drop ((F.take LN).length) := by
    rw [List.append_assoc, ← hu]
    congr 1
    conv_lhs => rw [← List.take_append_drop ((F.take LN).length) F]
    rw [htakej]
  obtain ⟨hA, hB, hAB⟩ := List.pairwise_append.mp (hSdecomp ▸ hS)
  have hAdecomp : u ++ F.take LN = (u ++ R1p) ++ [w1] := by
    rw [hR1p, List.append_assoc]
  have hAle : ∀ a ∈ u ++ F.take LN, key a ≤ key w1 := by
    intro a ha
    rw [hAdecomp] at ha
    rcases List.mem_append.mp ha with h | h
    · obtain ⟨_, _, hx⟩ := List.pairwise_append.mp (hAdecomp ▸ hA)
      exact le_of_lt (hx a h w1 (List.mem_singleton_self w1))
    · rw [List.mem_singleton.mp h]
  have hw1A : w1 ∈ u ++ F.take LN := by
    rw [hAdecomp]
    exact List.mem_append_right _ (List.mem_singleton_self w1)
  have hF2 : S.filter (fun r => decide (key w1 < key r))
      = F.drop ((F.take LN).length) := by
    rw [hSdecomp, List.filter_append]
    have h1 : (u ++ F.take LN).filter (fun r => decide (key w1 < key r)) = [] :=
      List.filter_eq_nil_iff.mpr (fun a ha => by
        simpa using not_lt.mpr (hAle a ha))
    have h2 : (F.drop ((F.take LN).length)).filter (fun r => decide (key w1 < key r))
        = F.drop ((F.take LN).length) :=
      List.filter_eq_self.mpr (fun b hb => by simpa using hAB w1 hw1A b hb)
    rw [h1, h2, List.nil_append]
  rw [hF2] at hw2
  have hR1ne : F.take LN ≠ [] := by
    intro h
    rw [h] at hw1
    simp at hw1
  have hLN1 : 1 ≤ LN := by
    by_contra h
    have h0 : LN = 0 := by omega
    rw [h0, List.take_zero] at hR1ne
    exact hR1ne rfl
  obtain ⟨B', hBdecomp⟩ : ∃ B', F.drop ((F.take LN).length) = w2 :: B' := by
    cases hBc : F.drop ((F.take LN).length) with
    | nil =>
      rw [hBc] at hw2
      simp at hw2
    | cons b B' =>
      rw [hBc, List.head?_take, if_neg (by omega)] at hw2
      simp only [List.head?_cons, Option.some_inj] at hw2
      exact ⟨B', by rw [hw2]⟩
  have hjLN : (F.take LN).length = LN := by
    have hBne : F.drop ((F.take LN).length) ≠ [] := by
      rw [hBdecomp]
      simp
    have hlt : (F.take LN).length < F.length := by
      by_contra h
      push_neg at h
      exact hBne (List.drop_eq_nil_of_le h)
    rw [List.length_take] at hlt ⊢
    omega
  have hF3 : S.filter (fun r => decide (key r < key w2)) = u ++ F.take LN := by
    rw [hSdecomp, List.filter_append]
    have h1 : (u ++ F.take LN).filter (fun r => decide (key r < key w2))
        = u ++ F.take LN :=
      List.filter_eq_self.mpr (fun a ha => by
        simpa using hAB a ha w2 (by rw [hBdecomp]; exact List.mem_cons_self w2 B'))
    have h2 : (F.drop ((F.take LN).length)).filter (fun r => decide (key r < key w2))
        = [] :=
      List.filter_eq_nil_iff.mpr (fun b hb => by
        rw [hBdecomp] at hb
        rcases List.mem_cons.mp hb with h | h
        · subst h
          simp
        · have hBpair : (w2 :: B').Pairwise (fun a b => key a < key b) := hBdecomp ▸ hB
          have hlt := (List.pairwise_cons.mp hBpair).1 b h
          simpa using not_lt.mpr (le_of_lt hlt))
    rw [h1, h2, List.append_nil]
  rw [hF3, List.reverse_append]
  have hlen : ((F.take LN).reverse).length = LN := by
    rw [List.length_reverse]
    exact hjLN
  rw [List.take_left' hlen, List.reverse_reverse]

theorem bool_eq_decide {b : Bool} {P : Prop} [Decidable P] (h : b = true ↔ P) :
    b = decide P := by
  cases hb : b
  · rw [hb] at h
    symm
    rw [decide_eq_false_iff_not]
    intro hp
    exact Bool.false_ne_true (h.mpr hp)
  · rw [hb] at h
    symm
    rw [decide_eq_true_iff]
    exact h.mp rfl

theorem mongoStore_resp {Q V : Type} [Inhabited V] [LinearOrder V]
    (evalQ : Q → Record V → Bool) (coll : List (Record V)) (sq : StoreQuery Q V)
    (hproj : sq.projection = none) :
    mongoStore evalQ coll sq
      = (sortBy (fieldLE sq.sortSpec)
          (coll.filter (evalFilter evalQ sq))).take sq.limitN.toNat := by
  unfold mongoStore
  rw [hproj]
  exact List.map_id'' (fun r => rfl) _

theorem filter_evalFilter_none {Q V : Type} [Inhabited V] [LinearOrder V]
    (evalQ : Q → Record V → Bool) (coll : List (Record V)) (sq : StoreQuery Q V)
    (hrange : sq.filterRange = none) :
    coll.filter (evalFilter evalQ sq)
      = coll.filter (fun r => match sq.filterBase with
          | none => true
          | some q => evalQ q r) := by
  refine List.filter_congr fun r _ => ?_
  unfold evalFilter
  rw [hrange]
  exact Bool.and_true _

theorem filter_evalFilter_some {Q V : Type} [Inhabited V] [LinearOrder V]
    (evalQ : Q → Record V → Bool) (coll : List (Record V)) (sq : StoreQuery Q V)
    (rf : RangeFilter V) (hrange : sq.filterRange = some rf) :
    coll.filter (evalFilter evalQ sq)
      = (coll.filter (fun r => match sq.filterBase with
          | none => true
          | some q => evalQ q r)).filter (fun r => evalRangeFilter rf r) := by
  rw [List.filter_filter]
  refine List.filter_congr fun r _ => ?_
  unfold evalFilter
  rw [hrange]
  exact Bool.and_comm _ _

theorem assemblePage_results_nofields {Q V T : Type} [Inhabited V] (cfg : Config)
    (codec : Codec T V) (p : Params Q V T) (next? prev? : Option (CursorVal V))
    (resp : List (Record V)) (hfields : p.fields = none) :
    (assemblePage cfg codec p next? prev? resp).results
      = if prev?.isSome then (keptResults cfg p resp).reverse
        else keptResults cfg p resp := by
  unfold assemblePage
  dsimp only
  rw [hfields]
  simp

theorem assemblePage_next_nofields {Q V T : Type} [Inhabited V] (cfg : Config)
    (codec : Codec T V) (p : Params Q V T) (next? prev? : Option (CursorVal V))
    (resp : List (Record V)) :
    (assemblePage cfg codec p next? prev? resp).next
      = (if prev?.isSome then (keptResults cfg p resp).reverse
          else keptResults cfg p resp).getLast?.map
        (fun r => codec.encode
          (cursorOf (shouldSecondarySortOnId p) (effPaginatedField p) r)) := by
  unfold assemblePage
  dsimp only

theorem assemblePage_previous_nofields {Q V T : Type} [Inhabited V] (cfg : Config)
    (codec : Codec T V) (p : Params Q V T) (next? prev? : Option (CursorVal V))
    (resp : List (Record V)) :
    (assemblePage cfg codec p next? prev? resp).previous
      = (if prev?.isSome then (keptResults cfg p resp).reverse
          else keptResults cfg p resp).head?.map
        (fun r => codec.encode
          (cursorOf (shouldSecondarySortOnId p) (effPaginatedField p) r)) := by
  unfold assemblePage
  dsimp only

/-- The three-call symmetry, generic in the scan key: a forward call (page N),
a forward call from its `next` cursor (page N+1), and a backward call from
page N+1's `previous` cursor reproduce page N's results.  `key`/`keyC`
abstract over the scan direction (the lexicographic `(paginatedField, _id)`
key, or its order dual for descending requests); the `hev`/`hle` hypotheses
record how the built range filters and sort comparators evaluate in terms of
the key, and are discharged by the direction-specific lemmas. -/
theorem paginate_three_calls {Q V T K : Type} [Inhabited V] [LinearOrder V]
    [LinearOrder K]
    (cfg : Config) (codec : Codec T V) (evalQ : Q → Record V → Bool)
    (coll : List (Record V)) (p : Params Q V T)
    (key : Record V → K) (keyC : CursorVal V → K)
    (hmax : 1 ≤ cfg.MAX_LIMIT)
    (hround : ∀ c, codec.decode (codec.encode c) = some c)
    (hfields : p.fields = none) (hprev : p.previous = none)
    (hnext : ∀ t, p.next = some t →
      ∃ c, codec.decode t = some c ∧ shapeOk (shouldSecondarySortOnId p) c)
    (hsorted : coll.Pairwise fun r s => key r < key s)
    (hkeyC : ∀ r, keyC (cursorOf (shouldSecondarySortOnId p) (effPaginatedField p) r)
      = key r)
    (hevF : ∀ c r, shapeOk (shouldSecondarySortOnId p) c →
      ((evalRangeFilter (mkRangeFilter (shouldSecondarySortOnId p) (effPaginatedField p)
          (rangeOpOf p false) c) r = true) ↔ keyC c < key r))
    (hevB : ∀ c r, shapeOk (shouldSecondarySortOnId p) c →
      ((evalRangeFilter (mkRangeFilter (shouldSecondarySortOnId p) (effPaginatedField p)
          (rangeOpOf p true) c) r = true) ↔ key r < keyC c))
    (hleF : ∀ r s, (fieldLE (sortSpecOf p false) r s = true) ↔ key r ≤ key s)
    (hleB : ∀ r s, (fieldLE (sortSpecOf p true) r s = true) ↔ key s ≤ key r)
    (τ π : T)
    (h1 : pageNext (paginate cfg codec p (mongoStore evalQ coll)) = some τ)
    (h2 : pagePrevious (paginate cfg codec { p with next := some τ }
        (mongoStore evalQ coll)) = some π) :
    pageResults (paginate cfg codec { p with next := none, previous := some π }
        (mongoStore evalQ coll))
      = pageResults (paginate cfg codec p (mongoStore evalQ coll)) := by
  have hL1 : 1 ≤ clampLimit cfg p.limit := clampLimit_pos cfg p.limit hmax
  have hdprev : decodeIf codec p.previous = .ok none := by
    rw [hprev]
    rfl
  -- Decode call 1's cursor; its filtered set is a suffix of the base set `S`.
  obtain ⟨nopt, hdn, hFsuf⟩ :
      ∃ nopt : Option (CursorVal V), decodeIf codec p.next = .ok nopt ∧
        coll.filter (evalFilter evalQ (buildStoreQuery cfg p nopt none))
          <:+ coll.filter (fun r => match p.query with
              | none => true
              | some q => evalQ q r) := by
    cases hn : p.next with
    | none =>
      refine ⟨none, rfl, ?_⟩
      rw [filter_evalFilter_none evalQ coll _ rfl]
      exact List.suffix_refl _
    | some t =>
      obtain ⟨c, hc, hshape⟩ := hnext t hn
      refine ⟨some c, ?_, ?_⟩
      · unfold decodeIf
        dsimp only
        rw [hc]
      · rw [filter_evalFilter_some evalQ coll _ _ rfl]
        refine filter_suffix_of_upward key _ ?_ _ (List.Pairwise.filter _ hsorted)
        intro a b hab ha
        exact (hevF c b hshape).mpr (lt_of_lt_of_le ((hevF c a hshape).mp ha) hab)
  -- Call 1's store response is the first `limit + 1` elements of that suffix.
  have hresp1 : mongoStore evalQ coll (buildStoreQuery cfg p nopt none)
      = (coll.filter (evalFilter evalQ (buildStoreQuery cfg p nopt none))).take
          (clampLimit cfg p.limit + 1).toNat := by
    rw [mongoStore_resp evalQ coll _ (by simp [buildStoreQuery, hfields])]
    congr 1
    refine sortBy_of_pairwise _ _ ?_
    refine (List.Pairwise.filter _ hsorted).imp ?_
    intro a b hab
    exact (hleF a b).mpr (le_of_lt hab)
  have hpag1 : paginate cfg codec p (mongoStore evalQ coll)
      = .ok (assemblePage cfg codec p nopt none
          (mongoStore evalQ coll (buildStoreQuery cfg p nopt none))) := by
    unfold paginate
    rw [hdprev, hdn]
  -- Unpack h1: the last record w1 of page N.
  rw [hpag1] at h1
  simp only [pageNext] at h1
  rw [assemblePage_next_nofields] at h1
  simp only [Option.isSome_none, Bool.false_eq_true, if_false] at h1
  rw [hresp1, keptResults_take cfg p _ hL1] at h1
  obtain ⟨w1, hw1, hτ⟩ := Option.map_eq_some'.mp h1
  -- Call 2.
  have hdn2 : decodeIf codec (some τ)
      = .ok (some (cursorOf (shouldSecondarySortOnId p) (effPaginatedField p) w1)) := by
    unfold decodeIf
    dsimp only
    rw [← hτ, hround]
  have hpag2 : paginate cfg codec { p with next := some τ } (mongoStore evalQ coll)
      = .ok (assemblePage cfg codec p
          (some (cursorOf (shouldSecondarySortOnId p) (effPaginatedField p) w1)) none
          (mongoStore evalQ coll (buildStoreQuery cfg p
            (some (cursorOf (shouldSecondarySortOnId p) (effPaginatedField p) w1))
            none))) := by
    unfold paginate
    rw [show ({ p with next := some τ } : Params Q V T).previous = p.previous from rfl,
      hdprev]
    rw [show ({ p with next := some τ } : Params Q V T).next = some τ from rfl, hdn2]
    rfl
  have hresp2 : mongoStore evalQ coll (buildStoreQuery cfg p
        (some (cursorOf (shouldSecondarySortOnId p) (effPaginatedField p) w1)) none)
      = ((coll.filter (fun r => match p.query with
            | none => true
            | some q => evalQ q r)).filter
          (fun r => decide (key w1 < key r))).take
          (clampLimit cfg p.limit + 1).toNat := by
    rw [mongoStore_resp evalQ coll _ (by simp [buildStoreQuery, hfields])]
    have hfilt : coll.filter (evalFilter evalQ (buildStoreQuery cfg p
          (some (cursorOf (shouldSecondarySortOnId p) (effPaginatedField p) w1)) none))
        = (coll.filter (fun r => match p.query with
            | none => true
            | some q => evalQ q r)).filter (fun r => decide (key w1 < key r)) := by
      rw [filter_evalFilter_some evalQ coll _ _ rfl]
      refine List.filter_congr fun r _ => ?_
      refine bool_eq_decide ?_
      have hiff := hevF (cursorOf (shouldSecondarySortOnId p) (effPaginatedField p) w1)
        r (shapeOk_cursorOf _ _ _)
      rw [hkeyC w1] at hiff
      exact hiff
    rw [hfilt]
    congr 1
    refine sortBy_of_pairwise _ _ ?_
    refine (List.Pairwise.filter _ (List.Pairwise.filter _ hsorted)).imp ?_
    intro a b hab
    exact (hleF a b).mpr (le_of_lt hab)
  -- Unpack h2: the first record w2 of page N+1.
  rw [hpag2] at h2
  simp only [pagePrevious] at h2
  rw [assemblePage_previous_nofields] at h2
  simp only [Option.isSome_none, Bool.false_eq_true, if_false] at h2
  rw [hresp2, keptResults_take cfg p _ hL1] at h2
  obtain ⟨w2, hw2, hπ⟩ := Option.map_eq_some'.mp h2
  -- Call 3.
  have hdprev3 : decodeIf codec (some π)
      = .ok (some (cursorOf (shouldSecondarySortOnId p) (effPaginatedField p) w2)) := by
    unfold decodeIf
    dsimp only
    rw [← hπ, hround]
  have hpag3 : paginate cfg codec { p with next := none, previous := some π }
        (mongoStore evalQ coll)
      = .ok (assemblePage cfg codec p none
          (some (cursorOf (shouldSecondarySortOnId p) (effPaginatedField p) w2))
          (mongoStore evalQ coll (buildStoreQuery cfg p none
            (some (cursorOf (shouldSecondarySortOnId p) (effPaginatedField p) w2))))) := by
    unfold paginate
    rw [show ({ p with next := none, previous := some π } : Params Q V T).previous
        = some π from rfl, hdprev3]
    rw [show ({ p with next := none, previous := some π } : Params Q V T).next
        = none from rfl]
    rfl
  have hresp3 : mongoStore evalQ coll (buildStoreQuery cfg p none
        (some (cursorOf (shouldSecondarySortOnId p) (effPaginatedField p) w2)))
      = (((coll.filter (fun r => match p.query with
            | none => true
            | some q => evalQ q r)).filter
          (fun r => decide (key r < key w2))).reverse).take
          (clampLimit cfg p.limit + 1).toNat := by
    rw [mongoStore_resp evalQ coll _ (by simp [buildStoreQuery, hfields])]
    have hfilt : coll.filter (evalFilter evalQ (buildStoreQuery cfg p none
          (some (cursorOf (shouldSecondarySortOnId p) (effPaginatedField p) w2))))
        = (coll.filter (fun r => match p.query with
            | none => true
            | some q => evalQ q r)).filter (fun r => decide (key r < key w2)) := by
      rw [filter_evalFilter_some evalQ coll _ _ rfl]
      refine List.filter_congr fun r _ => ?_
      refine bool_eq_decide ?_
      have hiff := hevB (cursorOf (shouldSecondarySortOnId p) (effPaginatedField p) w2)
        r (shapeOk_cursorOf _ _ _)
      rw [hkeyC w2] at hiff
      exact hiff
    rw [hfilt]
    congr 1
    refine sortBy_eq_reverse_of_pairwise _ _ ?_
    refine (List.Pairwise.filter _ (List.Pairwise.filter _ hsorted)).imp ?_
    intro a b hab
    rw [Bool.eq_false_iff]
    intro hcon
    exact absurd ((hleB a b).mp hcon) (not_le.mpr hab)
  -- Assemble the final equality via the engine lemma.
  rw [hpag1, hpag3]
  simp only [pageResults]
  rw [assemblePage_results_nofields cfg codec p _ _ _ hfields,
    assemblePage_results_nofields cfg codec p _ _ _ hfields]
  simp only [Option.isSome_none, Option.isSome_some, Bool.false_eq_true, if_false,
    if_true]
  rw [hresp1, keptResults_take cfg p _ hL1]
  rw [hresp3, keptResults_take cfg p _ hL1]
  rw [Option.some_inj]
  exact page_symmetry_core key _ (List.Pairwise.filter _ hsorted)
    ((clampLimit cfg p.limit).toNat) _ hFsuf w1 hw1 w2 hw2

/-- Claim C5: forward/backward symmetry.  Over an unchanged record collection
totally ordered by `(paginatedField, _id)` (listed in the caller's requested
direction, with strictly increasing keys in that direction), paginating
forward to reach a page N (`h1` names its `next` cursor `τ`), fetching the
following page with `τ` (`h2` names the `previous` cursor `π` returned
alongside it), and then calling `paginate` with `previous := π` reproduces
page N's record sequence exactly — in particular the physically reversed
backward scan is re-reversed into the caller's requested sort order. -/
theorem claim5_forward_backward_symmetry {Q V T : Type} [Inhabited V] [LinearOrder V]
    (cfg : Config) (codec : Codec T V) (evalQ : Q → Record V → Bool)
    (coll : List (Record V)) (p : Params Q V T) (τ π : T)
    (hmax : 1 ≤ cfg.MAX_LIMIT)
    (hround : ∀ c, codec.decode (codec.encode c) = some c)
    (hfields : p.fields = none) (hprev : p.previous = none)
    (hnext : ∀ t, p.next = some t →
      ∃ c, codec.decode t = some c ∧ shapeOk (shouldSecondarySortOnId p) c)
    (hsorted : coll.Pairwise fun r s =>
      if truthyB p.sortAscending = true
      then ckey (effPaginatedField p) r < ckey (effPaginatedField p) s
      else ckey (effPaginatedField p) s < ckey (effPaginatedField p) r)
    (h1 : pageNext (paginate cfg codec p (mongoStore evalQ coll)) = some τ)
    (h2 : pagePrevious (paginate cfg codec { p with next := some τ }
        (mongoStore evalQ coll)) = some π) :
    pageResults (paginate cfg codec { p with next := none, previous := some π }
        (mongoStore evalQ coll))
      = pageResults (paginate cfg codec p (mongoStore evalQ coll)) := by
  by_cases hasc : truthyB p.sortAscending = true
  · -- Ascending request: the scan key is the lexicographic pair itself.
    have hopF : rangeOpOf p false = RangeOp.gt := by
      simp [rangeOpOf, sortAscOf, hasc]
    have hopB : rangeOpOf p true = RangeOp.lt := by
      simp [rangeOpOf, sortAscOf, hasc]
    have hdirF : sortDirOf p false = 1 := by
      simp [sortDirOf, sortAscOf, hasc]
    have hdirB : sortDirOf p true = -1 := by
      simp [sortDirOf, sortAscOf, hasc]
    refine paginate_three_calls cfg codec evalQ coll p
      (ckey (effPaginatedField p)) cursorKey hmax hround hfields hprev hnext
      ?_ ?_ ?_ ?_ ?_ ?_ τ π h1 h2
    · refine hsorted.imp ?_
      intro a b hab
      rwa [if_pos hasc] at hab
    · exact fun r => cursorKey_cursorOf (effPaginatedField p) r
    · intro c r hc
      rw [hopF]
      exact evalRange_gt_iff (effPaginatedField p) c r hc
    · intro c r hc
      rw [hopB]
      exact evalRange_lt_iff (effPaginatedField p) c r hc
    · intro r s
      unfold sortSpecOf
      rw [hdirF]
      by_cases hsec : shouldSecondarySortOnId p = true
      · rw [if_pos hsec]
        exact fieldLE_pair_asc_iff (effPaginatedField p) r s
      · rw [if_neg hsec]
        have hpf : effPaginatedField p = "_id" := by
          by_contra hne
          exact hsec (by simpa [shouldSecondarySortOnId] using hne)
        rw [hpf]
        exact fieldLE_single_asc_iff r s
    · intro r s
      unfold sortSpecOf
      rw [hdirB]
      by_cases hsec : shouldSecondarySortOnId p = true
      · rw [if_pos hsec]
        exact fieldLE_pair_desc_iff (effPaginatedField p) r s
      · rw [if_neg hsec]
        have hpf : effPaginatedField p = "_id" := by
          by_contra hne
          exact hsec (by simpa [shouldSecondarySortOnId] using hne)
        rw [hpf]
        exact fieldLE_single_desc_iff r s
  · -- Descending request: the scan key is the order dual of the pair.
    have hf : truthyB p.sortAscending = false := Bool.eq_false_iff.mpr hasc
    have hopF : rangeOpOf p false = RangeOp.lt := by
      simp [rangeOpOf, sortAscOf, hf]
    have hopB : rangeOpOf p true = RangeOp.gt := by
      simp [rangeOpOf, sortAscOf, hf]
    have hdirF : sortDirOf p false = -1 := by
      simp [sortDirOf, sortAscOf, hf]
    have hdirB : sortDirOf p true = 1 := by
      simp [sortDirOf, sortAscOf, hf]
    refine paginate_three_calls (K := (Lex (V × V))ᵒᵈ) cfg codec evalQ coll p
      (fun r => OrderDual.toDual (ckey (effPaginatedField p) r))
      (fun c => OrderDual.toDual (cursorKey c)) hmax hround hfields hprev hnext
      ?_ ?_ ?_ ?_ ?_ ?_ τ π h1 h2
    · refine hsorted.imp ?_
      intro a b hab
      rw [if_neg hasc] at hab
      exact hab
    · intro r
      exact congrArg OrderDual.toDual (cursorKey_cursorOf (effPaginatedField p) r)
    · intro c r hc
      rw [hopF]
      exact evalRange_lt_iff (effPaginatedField p) c r hc
    · intro c r hc
      rw [hopB]
      exact evalRange_gt_iff (effPaginatedField p) c r hc
    · intro r s
      unfold sortSpecOf
      rw [hdirF]
      by_cases hsec : shouldSecondarySortOnId p = true
      · rw [if_pos hsec]
        exact fieldLE_pair_desc_iff (effPaginatedField p) r s
      · rw [if_neg hsec]
        have hpf : effPaginatedField p = "_id" := by
          by_contra hne
          exact hsec (by simpa [shouldSecondarySortOnId] using hne)
        rw [hpf]
        exact fieldLE_single_desc_iff r s
    · intro r s
      unfold sortSpecOf
      rw [hdirB]
      by_cases hsec : shouldSecondarySortOnId p = true
      · rw [if_pos hsec]
        exact fieldLE_pair_asc_iff (effPaginatedField p) r s
      · rw [if_neg hsec]
        have hpf : effPaginatedField p = "_id" := by
          by_contra hne
          exact hsec (by simpa [shouldSecondarySortOnId] using hne)
        rw [hpf]
        exact fieldLE_single_asc_iff r s

/-- Witness for C5: two records `{_id: 1}`, `{_id: 2}` with limit 1, ascending.
Page 1 is `[{_id: 1}]` with next cursor `1`; page 2 is `[{_id: 2}]` with
previous cursor `2`; paginating backwards from that cursor returns page 1. -/
theorem claim5_witness :
    pageResults (paginate (Q := Unit) ⟨10, 100⟩
        (⟨fun c => c, fun c => some c⟩ : Codec (CursorVal Int) Int)
        { limit := some 1, sortAscending := some true, next := none,
          previous := some (.single 2) }
        (mongoStore (fun (_ : Unit) _ => true) [[("_id", 1)], [("_id", 2)]]))
      = pageResults (paginate ⟨10, 100⟩
        (⟨fun c => c, fun c => some c⟩ : Codec (CursorVal Int) Int)
        { limit := some 1, sortAscending := some true }
        (mongoStore (fun (_ : Unit) _ => true) [[("_id", 1)], [("_id", 2)]])) := by
  have hsorted : ([[("_id", (1 : Int))], [("_id", 2)]] : List (Record Int)).Pairwise
      (fun r s =>
        if truthyB (some true) = true
        then ckey "_id" r < ckey "_id" s
        else ckey "_id" s < ckey "_id" r) := by
    refine List.Pairwise.cons ?_ (List.pairwise_singleton _ _)
    intro b hb
    rw [List.mem_singleton.mp hb]
    show ckey "_id" [("_id", (1 : Int))] < ckey "_id" [("_id", (2 : Int))]
    show toLex ((1 : Int), (1 : Int)) < toLex ((2 : Int), (2 : Int))
    exact (Prod.Lex.lt_iff _ _).mpr (Or.inl (by norm_num))
  exact claim5_forward_backward_symmetry ⟨10, 100⟩
    (⟨fun c => c, fun c => some c⟩ : Codec (CursorVal Int) Int)
    (fun (_ : Unit) _ => true) [[("_id", 1)], [("_id", 2)]]
    { limit := some 1, sortAscending := some true }
    (.single 1) (.single 2) (by norm_num)
    (fun c => rfl) rfl rfl (fun t ht => Option.noConfusion ht)
    hsorted rfl rfl

end MCP
